import Mathlib

/-!
Verification development for the document chunking and indexing pipeline of the
`obsidian-intelligence-rag` repository.

Each embedded definition mirrors one function of the TypeScript source:
* `Chunker.*`      — `ChunkingService.splitByCharacters` (services/chunker.ts),
* `Embedding.*`    — `EmbeddingService.calculateCosineSimilarity` (services/embeddings.ts),
* `Analyzer.*`     — `DocumentAnalyzer.analyzeDocument` / `calculateConfidenceScore` (ai/analyzer.ts),
* `Indexer.*`      — the `IndexerService` queue coordinator (services/indexer.ts).

Strings are modelled as `List Char`, JavaScript numbers as `ℚ` (or `ℝ` where a
square root occurs), and the coordinator's cooperative-concurrency execution as a
small-step transition system whose events are the synchronous segments of the
JavaScript code between `await` suspension points.
-/

namespace Chunker

/-- The chunking options record (`ChunkingOptions` in chunker.ts).  Only
`chunkSize` and `chunkOverlap` are read by `splitByCharacters`; the remaining
fields are carried for completeness. -/
structure ChunkingOptions where
  chunkSize : Nat
  chunkOverlap : Nat
  preserveEntities : Bool := true
  respectHeaders : Bool := true
  respectParagraphs : Bool := true
deriving DecidableEq, Repr

/-- JavaScript `text.lastIndexOf(c, fromIndex)`: the greatest index `i ≤ fromIndex`
with `text[i] = c`, as an `Option` (JS returns `-1` when absent). -/
def lastIndexOfLe (text : List Char) (c : Char) : Nat → Option Nat
  | 0 => if 0 < text.length ∧ text.getD 0 ' ' = c then some 0 else none
  | i + 1 =>
    if i + 1 < text.length ∧ text.getD (i + 1) ' ' = c then some (i + 1)
    else lastIndexOfLe text c i

/-- The four breakpoint searches of `splitByCharacters`
(`lastPeriod`, `lastQuestion`, `lastExclamation`, `lastNewline`). -/
def breakCandidates (text : List Char) (e : Nat) : List Nat :=
  [lastIndexOfLe text '.' e, lastIndexOfLe text '?' e,
   lastIndexOfLe text '!' e, lastIndexOfLe text '\n' e].filterMap id

/-- JavaScript `Math.max(...l)` for a nonempty list, `none` for the empty list. -/
def jsMax : List Nat → Option Nat
  | [] => none
  | x :: xs => some (xs.foldl max x)

/-- The `endPosition` computation of one `splitByCharacters` iteration:
`min(pos + chunkSize, len)`, then, when not at the end of the text, moved to one
past the best sentence breakpoint `p` with `p > pos && p > endPosition - 100`. -/
def nextEnd (o : ChunkingOptions) (text : List Char) (pos : Nat) : Nat :=
  if min (pos + o.chunkSize) text.length < text.length then
    match jsMax ((breakCandidates text (min (pos + o.chunkSize) text.length)).filter
        fun p => decide (pos < p ∧ min (pos + o.chunkSize) text.length < p + 100)) with
    | some m => m + 1
    | none => min (pos + o.chunkSize) text.length
  else min (pos + o.chunkSize) text.length

/-- The `currentPosition` update of `splitByCharacters`:
`currentPosition = endPosition - chunkOverlap`, reset to `endPosition` when
`currentPosition <= 0 || currentPosition >= endPosition`.  (Over `Nat`,
`e - chunkOverlap = 0` exactly when the JS value is `≤ 0`.) -/
def nextPos (o : ChunkingOptions) (e : Nat) : Nat :=
  if e - o.chunkOverlap = 0 ∨ e ≤ e - o.chunkOverlap then e else e - o.chunkOverlap

/-- The `(currentPosition, endPosition)` windows cut by the `while` loop of
`splitByCharacters`, starting at position `pos`, with explicit fuel: `none`
means the loop has not terminated within `fuel` iterations. -/
def splitSpans (o : ChunkingOptions) (text : List Char) : Nat → Nat → Option (List (Nat × Nat))
  | 0, pos => if text.length ≤ pos then some [] else none
  | fuel + 1, pos =>
    if text.length ≤ pos then some []
    else
      match splitSpans o text fuel (nextPos o (nextEnd o text pos)) with
      | some rest => some ((pos, nextEnd o text pos) :: rest)
      | none => none

/-- JavaScript `text.substring(s, e)` for `s ≤ e` within bounds. -/
def substringAt (text : List Char) (s e : Nat) : List Char := (text.drop s).take (e - s)

/-- JavaScript `String.prototype.trim()` (restricted to ASCII whitespace, which
covers every input used in this development). -/
def jsTrim (l : List Char) : List Char :=
  ((l.dropWhile Char.isWhitespace).reverse.dropWhile Char.isWhitespace).reverse

/-- `ChunkingService.splitByCharacters`: each cut window, trimmed.  `none` when
the source loop does not terminate within `fuel` iterations. -/
def splitByCharacters (o : ChunkingOptions) (text : List Char) (fuel : Nat) :
    Option (List (List Char)) :=
  (splitSpans o text fuel 0).map (List.map fun se => jsTrim (substringAt text se.1 se.2))

theorem lastIndexOfLe_le {text : List Char} {c : Char} {i j : Nat}
    (h : lastIndexOfLe text c i = some j) : j ≤ i ∧ j < text.length := by
  induction i with
  | zero =>
    unfold lastIndexOfLe at h
    split at h
    · rename_i hc
      cases h
      exact ⟨le_refl _, hc.1⟩
    · simp at h
  | succ n ih =>
    unfold lastIndexOfLe at h
    split at h
    · rename_i hc
      cases h
      exact ⟨le_refl _, hc.1⟩
    · have := ih h
      omega

theorem jsMax_mem {l : List Nat} {m : Nat} (h : jsMax l = some m) : m ∈ l := by
  match l with
  | [] => simp [jsMax] at h
  | x :: xs =>
    simp only [jsMax, Option.some.injEq] at h
    subst h
    induction xs generalizing x with
    | nil => simp
    | cons y ys ih =>
      simp only [List.foldl_cons]
      rcases List.mem_cons.mp (ih (max x y)) with hm | hm
      · rw [hm]
        rcases max_choice x y with he | he <;> rw [he] <;> simp
      · simp [List.mem_cons, hm]

theorem breakCandidates_le {text : List Char} {e m : Nat} (h : m ∈ breakCandidates text e) :
    m ≤ e ∧ m < text.length := by
  unfold breakCandidates at h
  simp only [List.mem_filterMap, id_eq] at h
  rcases h with ⟨a, ha, rfl⟩
  simp only [List.mem_cons, List.not_mem_nil, or_false] at ha
  rcases ha with h1 | h1 | h1 | h1 <;> exact lastIndexOfLe_le h1.symm

theorem nextEnd_le_add (o : ChunkingOptions) (text : List Char) (pos : Nat) :
    nextEnd o text pos ≤ pos + o.chunkSize + 1 := by
  unfold nextEnd
  have hmin : min (pos + o.chunkSize) text.length ≤ pos + o.chunkSize := min_le_left _ _
  split
  · split
    · rename_i m hm
      have hmem := (breakCandidates_le (List.mem_of_mem_filter (jsMax_mem hm))).1
      omega
    · omega
  · omega

theorem nextEnd_le_len (o : ChunkingOptions) (text : List Char) (pos : Nat) :
    nextEnd o text pos ≤ text.length := by
  unfold nextEnd
  have hmin : min (pos + o.chunkSize) text.length ≤ text.length := min_le_right _ _
  split
  · split
    · rename_i m hm
      have hmem := (breakCandidates_le (List.mem_of_mem_filter (jsMax_mem hm))).2
      omega
    · omega
  · omega

theorem nextPos_le_end (o : ChunkingOptions) (e : Nat) : nextPos o e ≤ e := by
  unfold nextPos
  split
  · exact le_refl _
  · omega

theorem splitSpans_bound (o : ChunkingOptions) (text : List Char) :
    ∀ fuel pos spans, splitSpans o text fuel pos = some spans →
      ∀ se ∈ spans, se.2 ≤ se.1 + o.chunkSize + 1 := by
  intro fuel
  induction fuel with
  | zero =>
    intro pos spans h se hm
    unfold splitSpans at h
    split at h
    · cases h; simp at hm
    · simp at h
  | succ n ih =>
    intro pos spans h se hm
    unfold splitSpans at h
    split at h
    · cases h; simp at hm
    · cases hrest : splitSpans o text n (nextPos o (nextEnd o text pos)) with
      | none => rw [hrest] at h; simp at h
      | some rest =>
        rw [hrest] at h
        cases h
        rcases List.mem_cons.mp hm with he | hm'
        · subst he
          exact nextEnd_le_add o text pos
        · exact ih _ _ hrest se hm'

theorem substringAt_length_le (text : List Char) (s e : Nat) :
    (substringAt text s e).length ≤ e - s := by
  unfold substringAt
  simp [List.length_take]

theorem jsTrim_length_le (l : List Char) : (jsTrim l).length ≤ l.length := by
  unfold jsTrim
  have h1 : ∀ (m : List Char), (m.dropWhile Char.isWhitespace).length ≤ m.length := by
    intro m
    induction m with
    | nil => simp [List.dropWhile]
    | cons x xs ih =>
      by_cases hx : Char.isWhitespace x
      · simp [List.dropWhile, hx]
        omega
      · simp [List.dropWhile, hx]
  calc (((l.dropWhile Char.isWhitespace).reverse.dropWhile Char.isWhitespace).reverse).length
      = ((l.dropWhile Char.isWhitespace).reverse.dropWhile Char.isWhitespace).length := by
        simp
    _ ≤ (l.dropWhile Char.isWhitespace).reverse.length := h1 _
    _ = (l.dropWhile Char.isWhitespace).length := by simp
    _ ≤ l.length := h1 l

/-- Concatenation of the cut windows in order, with the part of each window
already covered by earlier windows (the leading overlap region, tracked by the
high-water mark `hw`) removed. -/
def coveredConcat (text : List Char) : Nat → List (Nat × Nat) → List Char
  | _, [] => []
  | hw, se :: rest => substringAt text (max se.1 hw) se.2 ++ coveredConcat text (max hw se.2) rest

theorem substring_drop_append (text : List Char) (hw e : Nat) :
    substringAt text hw e ++ text.drop (max hw e) = text.drop hw := by
  rcases le_or_lt e hw with hle | hlt
  · rw [max_eq_left hle]
    have h0 : e - hw = 0 := by omega
    simp [substringAt, h0]
  · rw [max_eq_right (le_of_lt hlt)]
    unfold substringAt
    have hd : text.drop e = (text.drop hw).drop (e - hw) := by
      rw [List.drop_drop]
      congr 1
      omega
    rw [hd, List.take_append_drop]

theorem splitSpans_covered (o : ChunkingOptions) (text : List Char) :
    ∀ fuel pos spans hw, splitSpans o text fuel pos = some spans →
      pos ≤ hw → coveredConcat text hw spans = text.drop hw := by
  intro fuel
  induction fuel with
  | zero =>
    intro pos spans hw h hph
    unfold splitSpans at h
    split at h
    · cases h
      rename_i hlen
      rw [coveredConcat, List.drop_eq_nil_of_le (by omega)]
    · simp at h
  | succ n ih =>
    intro pos spans hw h hph
    unfold splitSpans at h
    split at h
    · cases h
      rename_i hlen
      rw [coveredConcat, List.drop_eq_nil_of_le (by omega)]
    · cases hrest : splitSpans o text n (nextPos o (nextEnd o text pos)) with
      | none => rw [hrest] at h; simp at h
      | some rest =>
        rw [hrest] at h
        cases h
        rw [coveredConcat]
        have hmx : max pos hw = hw := max_eq_right hph
        rw [hmx]
        have hnp : nextPos o (nextEnd o text pos) ≤ max hw (nextEnd o text pos) :=
          le_trans (nextPos_le_end o _) (le_max_right _ _)
        rw [ih _ _ _ hrest hnp]
        exact substring_drop_append text hw (nextEnd o text pos)

/-- Options with `chunkOverlap` equal to `chunkSize` — per the spec this must be
treated as overlap zero. -/
def optsOverlapEq : ChunkingOptions := { chunkSize := 10, chunkOverlap := 10 }

/-- Thirty letters `a`: no sentence punctuation, no newline. -/
def textThirty : List Char := List.replicate 30 'a'

/-- C2: for every input and option configuration — including
`chunkOverlap ≥ chunkSize` — the character-split routine terminates and never
re-emits a window.  REFUTED: with `chunkSize = 10`, `chunkOverlap = 10` and a
30-character text, the loop reaches position 10, cuts the window `(10, 20)`,
and the position update returns to 10, so the same window is re-cut forever:
the loop never terminates for any amount of fuel. -/
theorem claim_C2_overlap_ge_size_diverges :
    (∀ fuel, splitByCharacters optsOverlapEq textThirty fuel = none) ∧
    nextEnd optsOverlapEq textThirty 10 = 20 ∧
    nextPos optsOverlapEq (nextEnd optsOverlapEq textThirty 10) = 10 := by
  have key : ∀ fuel, splitSpans optsOverlapEq textThirty fuel 10 = none := by
    intro fuel
    induction fuel with
    | zero => decide
    | succ n ih =>
      unfold splitSpans
      rw [if_neg (by decide),
        show nextPos optsOverlapEq (nextEnd optsOverlapEq textThirty 10) = 10 from by decide,
        ih]
  have key0 : ∀ fuel, splitSpans optsOverlapEq textThirty fuel 0 = none := by
    intro fuel
    cases fuel with
    | zero => decide
    | succ n =>
      unfold splitSpans
      rw [if_neg (by decide),
        show nextPos optsOverlapEq (nextEnd optsOverlapEq textThirty 0) = 10 from by decide,
        key n]
  refine ⟨fun fuel => ?_, by decide, by decide⟩
  unfold splitByCharacters
  rw [key0 fuel]
  rfl

/-- C3: every chunk emitted by the character-split tier has length at most
`chunkSize + 1`.  (The cut position is `min(pos + chunkSize, len)` moved to one
past a sentence breakpoint `≤` that bound, so a chunk can exceed `chunkSize` by
exactly one character, never more; trimming only shortens.) -/
theorem claim_C3_char_chunk_length_le_size_succ (o : ChunkingOptions) (text : List Char)
    (fuel : Nat) (chunks : List (List Char))
    (h : splitByCharacters o text fuel = some chunks) :
    ∀ c ∈ chunks, c.length ≤ o.chunkSize + 1 := by
  intro c hc
  unfold splitByCharacters at h
  cases hs : splitSpans o text fuel 0 with
  | none => rw [hs] at h; simp at h
  | some spans =>
    rw [hs] at h
    have h2 : spans.map (fun se => jsTrim (substringAt text se.1 se.2)) = chunks := by
      simpa using h
    subst h2
    simp only [List.mem_map] at hc
    rcases hc with ⟨se, hse, rfl⟩
    have hb := splitSpans_bound o text fuel 0 spans hs se hse
    calc (jsTrim (substringAt text se.1 se.2)).length
        ≤ (substringAt text se.1 se.2).length := jsTrim_length_le _
      _ ≤ se.2 - se.1 := substringAt_length_le text se.1 se.2
      _ ≤ o.chunkSize + 1 := by omega

/-- Options with `chunkSize = 10`, `chunkOverlap = 0`. -/
def optsTen : ChunkingOptions := { chunkSize := 10, chunkOverlap := 0 }

/-- Ten letters, a period exactly at the window boundary (index 10), then more
letters. -/
def textPunct : List Char := "aaaaaaaaaa.bbbbb".toList

/-- C3 counterexample to the claim as stated (`length ≤ chunkSize` for the
character-split tier): with `chunkSize = 10` the first emitted chunk is the
11-character `"aaaaaaaaaa."` — the breakpoint search finds the period at index
10 and cuts one past it. -/
theorem claim_C3_counterexample :
    splitByCharacters optsTen textPunct 20 =
      some ["aaaaaaaaaa.".toList, "bbbbb".toList] ∧
    ("aaaaaaaaaa.".toList).length = 11 ∧ optsTen.chunkSize = 10 := by
  decide

/-- Witness for C3: the amended bound at the concrete 11-character chunk cut
from `textPunct`. -/
theorem claim_C3_witness :
    ("aaaaaaaaaa.".toList).length ≤ optsTen.chunkSize + 1 :=
  claim_C3_char_chunk_length_le_size_succ optsTen textPunct 20
    ["aaaaaaaaaa.".toList, "bbbbb".toList] (by decide) "aaaaaaaaaa.".toList (by decide)

/-- C4: whenever the character-split loop terminates, the windows it cut tile
the input exactly — concatenating each window with its already-covered (overlap)
prefix removed reconstructs the whole text.  The emitted chunks are these
windows after whitespace trimming, so reconstruction from the chunk texts
themselves holds only up to the trimmed whitespace. -/
theorem claim_C4_windows_reconstruct (o : ChunkingOptions) (text : List Char) (fuel : Nat)
    (spans : List (Nat × Nat)) (h : splitSpans o text fuel 0 = some spans) :
    coveredConcat text 0 spans = text := by
  have hc := splitSpans_covered o text fuel 0 spans 0 h (le_refl 0)
  simpa using hc

/-- Options with `chunkSize = 5`, `chunkOverlap = 0` (no overlap regions at
all, so the claim's reconstruction is plain concatenation). -/
def optsFive : ChunkingOptions := { chunkSize := 5, chunkOverlap := 0 }

/-- Nine characters with a space at the first cut point. -/
def textSpaces : List Char := "aaaa aaaa".toList

/-- C4 counterexample to the claim as stated: with overlap 0 the produced
chunks are `"aaaa"` and `"aaaa"` — the space at the window edge is dropped by
`trim()`, so concatenating the chunks does not reconstruct `"aaaa aaaa"`. -/
theorem claim_C4_counterexample :
    splitByCharacters optsFive textSpaces 10 = some ["aaaa".toList, "aaaa".toList] ∧
    optsFive.chunkOverlap = 0 ∧
    "aaaa".toList ++ "aaaa".toList ≠ textSpaces := by
  decide

/-- Witness for C4: the amended reconstruction evaluated on the concrete input
above (windows `(0,5)` and `(5,9)`). -/
theorem claim_C4_witness :
    coveredConcat textSpaces 0 [(0, 5), (5, 9)] = textSpaces :=
  claim_C4_windows_reconstruct optsFive textSpaces 10 [(0, 5), (5, 9)] (by decide)

end Chunker

namespace Embedding

open scoped Classical

/-- `EmbeddingService.calculateCosineSimilarity` (embeddings.ts).  The guard
throws (`Except.error`) when the dimensions differ; otherwise one loop
accumulates the dot product and the two squared norms, the norms are square
roots, a zero norm yields `0`, and otherwise the result is
`dotProduct / (normA * normB)`. -/
noncomputable def calculateCosineSimilarity (vecA vecB : List ℝ) : Except String ℝ :=
  if vecA.length ≠ vecB.length then .error "Vectors must have the same dimensions"
  else
    if Real.sqrt ((vecA.map fun x => x * x).sum) = 0 ∨
        Real.sqrt ((vecB.map fun x => x * x).sum) = 0 then .ok 0
    else
      .ok ((List.zipWith (fun x y => x * y) vecA vecB).sum /
        (Real.sqrt ((vecA.map fun x => x * x).sum) *
          Real.sqrt ((vecB.map fun x => x * x).sum)))

theorem zipWith_mul_self (a : List ℝ) :
    List.zipWith (fun x y => x * y) a a = a.map fun x => x * x := by
  induction a with
  | nil => rfl
  | cons y ys ih => simp [ih]

/-- C9: cosine similarity is symmetric on equal-length vectors, equals 1 on any
nonzero vector paired with itself, and returns 0 (never a division failure)
whenever either norm is zero. -/
theorem claim_C9_cosine_symmetry_unit_zero :
    (∀ a b : List ℝ, a.length = b.length →
      calculateCosineSimilarity a b = calculateCosineSimilarity b a) ∧
    (∀ a : List ℝ, (∃ x ∈ a, x ≠ 0) → calculateCosineSimilarity a a = .ok 1) ∧
    (∀ a b : List ℝ, a.length = b.length →
      (Real.sqrt ((a.map fun x => x * x).sum) = 0 ∨
        Real.sqrt ((b.map fun x => x * x).sum) = 0) →
      calculateCosineSimilarity a b = .ok 0) := by
  refine ⟨?_, ?_, ?_⟩
  · intro a b hlen
    unfold calculateCosineSimilarity
    have hz : List.zipWith (fun x y => x * y) a b = List.zipWith (fun x y => x * y) b a :=
      List.zipWith_comm_of_comm _ mul_comm a b
    conv_rhs => rw [if_neg (show ¬b.length ≠ a.length by simp [hlen])]
    rw [if_neg (show ¬a.length ≠ b.length by simp [hlen])]
    by_cases h0 : Real.sqrt ((a.map fun x => x * x).sum) = 0 ∨
        Real.sqrt ((b.map fun x => x * x).sum) = 0
    · rw [if_pos h0]
      conv_rhs => rw [if_pos (Or.symm h0)]
    · rw [if_neg h0]
      conv_rhs => rw [if_neg (fun hc => h0 (Or.symm hc))]
      rw [hz, mul_comm]
  · intro a ha
    rcases ha with ⟨x, hx, hxne⟩
    unfold calculateCosineSimilarity
    rw [if_neg (by simp)]
    have hnonneg : (0:ℝ) ≤ (a.map fun x => x * x).sum := by
      apply List.sum_nonneg
      intro y hy
      simp only [List.mem_map] at hy
      rcases hy with ⟨z, _, rfl⟩
      exact mul_self_nonneg z
    have hpos : (0:ℝ) < (a.map fun x => x * x).sum := by
      have hmem : x * x ∈ a.map fun x => x * x := List.mem_map_of_mem _ hx
      have hle : x * x ≤ (a.map fun x => x * x).sum := by
        apply List.single_le_sum _ _ hmem
        intro y hy
        simp only [List.mem_map] at hy
        rcases hy with ⟨z, _, rfl⟩
        exact mul_self_nonneg z
      have := mul_self_pos.mpr hxne
      linarith
    have hsq : Real.sqrt ((a.map fun x => x * x).sum) ≠ 0 :=
      ne_of_gt (Real.sqrt_pos.mpr hpos)
    rw [if_neg (by simp [hsq])]
    rw [zipWith_mul_self, Real.mul_self_sqrt hnonneg, div_self (ne_of_gt hpos)]
  · intro a b hlen h0
    unfold calculateCosineSimilarity
    rw [if_neg (by simp [hlen]), if_pos h0]

/-- Witness for C9 at concrete vectors. -/
theorem claim_C9_witness :
    calculateCosineSimilarity [(1:ℝ), 2] [2, 1] = calculateCosineSimilarity [2, 1] [(1:ℝ), 2] ∧
    calculateCosineSimilarity [(3:ℝ)] [(3:ℝ)] = .ok 1 ∧
    calculateCosineSimilarity ([0] : List ℝ) [5] = .ok 0 :=
  ⟨claim_C9_cosine_symmetry_unit_zero.1 [1, 2] [2, 1] rfl,
   claim_C9_cosine_symmetry_unit_zero.2.1 [3] ⟨3, by simp, by norm_num⟩,
   claim_C9_cosine_symmetry_unit_zero.2.2 [0] [5] rfl (Or.inl (by simp))⟩

/-- C10: the function throws exactly when the two vectors differ in length; on
equal lengths every path returns a value. -/
theorem claim_C10_throws_iff_dimension_mismatch (a b : List ℝ) :
    (∃ msg, calculateCosineSimilarity a b = .error msg) ↔ a.length ≠ b.length := by
  constructor
  · intro hmsg
    rcases hmsg with ⟨msg, hmsg⟩
    unfold calculateCosineSimilarity at hmsg
    by_contra hlen
    rw [if_neg (by simp [hlen])] at hmsg
    split at hmsg <;> exact Except.noConfusion hmsg
  · intro hlen
    refine ⟨"Vectors must have the same dimensions", ?_⟩
    unfold calculateCosineSimilarity
    rw [if_pos hlen]

end Embedding

namespace Analyzer

/-- JavaScript `value || defaultString` for an optional string field (the empty
string is falsy in JavaScript). -/
def jsStringOr (v : Option String) (d : String) : String :=
  match v with
  | none => d
  | some s => if s = "" then d else s

/-- An item of the `entities` array handed to `calculateConfidenceScore`
(analyzer.ts reads only its `confidence` label). -/
structure ExtractedEntity where
  name : String
  kind : String
  mentions : Option Nat
  confidence : Option String
deriving DecidableEq, Repr

/-- An item of the `relationships` array (only its `confidence` label is
read). -/
structure ExtractedRelationship where
  source : String
  target : String
  kind : String
  confidence : Option String
deriving DecidableEq, Repr

/-- One category of the classification payload.  The source reads only the
`confidence` field of each item (`c.confidence || 0`), whether the payload
parsed as an array or as an object (`Object.values` then yields this list). -/
structure ClassificationCategory where
  category : String
  confidence : Option ℚ
deriving DecidableEq, Repr

/-- The `entityScore` / `relationshipScore` locals of
`DocumentAnalyzer.calculateConfidenceScore`: count `high` / `medium` / `low`
labels, weight `1.0 / 0.6 / 0.3`, divide by the item count (`0` for an empty
list).  The divisor in the source is the item count, which equals the label
count because the labels are a `map` of the items. -/
def labelScore (labels : List String) : ℚ :=
  if labels.length = 0 then 0
  else
    (((labels.filter fun c => c == "high").length : ℚ) * 1 +
      ((labels.filter fun c => c == "medium").length : ℚ) * (6 / 10) +
      ((labels.filter fun c => c == "low").length : ℚ) * (3 / 10)) / (labels.length : ℚ)

/-- The `classificationScore` local: `sum / (length * 100)`, `0` for an empty
list. -/
def classificationScoreOf (scores : List ℚ) : ℚ :=
  if scores.length = 0 then 0 else scores.sum / ((scores.length : ℚ) * 100)

/-- `DocumentAnalyzer.calculateConfidenceScore` (analyzer.ts):
`entityScore*0.4 + relationshipScore*0.4 + classificationScore*0.2`, clamped to
`[0, 1]` by `Math.min(Math.max(·, 0), 1)`. -/
def calculateConfidenceScore (entities : List ExtractedEntity)
    (relationships : List ExtractedRelationship)
    (classification : List ClassificationCategory) : ℚ :=
  min (max (labelScore (entities.map fun e => jsStringOr e.confidence "low") * (4 / 10) +
      labelScore (relationships.map fun r => jsStringOr r.confidence "low") * (4 / 10) +
      classificationScoreOf (classification.map fun c => c.confidence.getD 0) * (2 / 10)) 0) 1

/-- The label table of the specification: `high → 1.0`, `medium → 0.6`,
`low → 0.3` (stated for the refinement comparison of C8). -/
def specLabelValue (s : String) : ℚ :=
  if s = "high" then 1 else if s = "medium" then 6 / 10 else 3 / 10

/-- Average of a list of rationals, `0` for the empty list (the spec's
averaging convention). -/
def specAverage (l : List ℚ) : ℚ :=
  if l.length = 0 then 0 else l.sum / (l.length : ℚ)

/-- The combined confidence exactly as the spec words it:
`0.4*entityScore + 0.4*relationshipScore + 0.2*classificationScore` with
`classificationScore` the mean per-category confidence divided by 100, clamped
to `[0, 1]` (stated for the refinement comparison of C8). -/
def specCombinedConfidence (entityLabels relLabels : List String)
    (classConfs : List ℚ) : ℚ :=
  min (max ((4 / 10) * specAverage (entityLabels.map specLabelValue) +
      (4 / 10) * specAverage (relLabels.map specLabelValue) +
      (2 / 10) * (specAverage classConfs / 100)) 0) 1

theorem label_numerator_eq (L : List String)
    (hL : ∀ s ∈ L, s = "high" ∨ s = "medium" ∨ s = "low") :
    ((L.filter fun c => c == "high").length : ℚ) * 1 +
      ((L.filter fun c => c == "medium").length : ℚ) * (6 / 10) +
      ((L.filter fun c => c == "low").length : ℚ) * (3 / 10) =
      (L.map specLabelValue).sum := by
  induction L with
  | nil => simp
  | cons x xs ih =>
    have hx := hL x (List.mem_cons_self x xs)
    have ih' := ih fun s hs => hL s (List.mem_cons_of_mem x hs)
    rcases hx with rfl | rfl | rfl <;>
      · simp only [List.filter_cons, List.map_cons, List.sum_cons, ← ih']
        norm_num [specLabelValue]
        push_cast
        ring

theorem labelScore_eq_specAverage (L : List String)
    (hL : ∀ s ∈ L, s = "high" ∨ s = "medium" ∨ s = "low") :
    labelScore L = specAverage (L.map specLabelValue) := by
  unfold labelScore specAverage
  rw [List.length_map]
  by_cases hz : L.length = 0
  · simp [hz]
  · rw [if_neg hz, if_neg hz, label_numerator_eq L hL]

theorem classificationScoreOf_eq_spec (s : List ℚ) :
    classificationScoreOf s = specAverage s / 100 := by
  unfold classificationScoreOf specAverage
  by_cases hz : s.length = 0
  · simp [hz]
  · rw [if_neg hz, if_neg hz, div_div]

/-- C8: under the claim's hypotheses — entity and relationship confidence
labels drawn from `{high, medium, low}` and per-category classification
confidences present in `[0, 100]` — the source's combined confidence equals
the spec's formula `0.4*entityAvg + 0.4*relAvg + 0.2*(classMean/100)` clamped
to `[0, 1]`. -/
theorem claim_C8_confidence_score_formula (entities : List ExtractedEntity)
    (relationships : List ExtractedRelationship)
    (classification : List ClassificationCategory)
    (he : ∀ e ∈ entities, e.confidence = some "high" ∨ e.confidence = some "medium" ∨
      e.confidence = some "low")
    (hr : ∀ r ∈ relationships, r.confidence = some "high" ∨ r.confidence = some "medium" ∨
      r.confidence = some "low")
    (_hc : ∀ c ∈ classification, ∃ v, c.confidence = some v ∧ 0 ≤ v ∧ v ≤ 100) :
    calculateConfidenceScore entities relationships classification =
      specCombinedConfidence (entities.map fun e => jsStringOr e.confidence "low")
        (relationships.map fun r => jsStringOr r.confidence "low")
        (classification.map fun c => c.confidence.getD 0) := by
  have heL : ∀ s ∈ entities.map fun e => jsStringOr e.confidence "low",
      s = "high" ∨ s = "medium" ∨ s = "low" := by
    intro s hs
    simp only [List.mem_map] at hs
    rcases hs with ⟨e, hmem, rfl⟩
    rcases he e hmem with h1 | h1 | h1 <;> rw [h1] <;> simp [jsStringOr]
  have hrL : ∀ s ∈ relationships.map fun r => jsStringOr r.confidence "low",
      s = "high" ∨ s = "medium" ∨ s = "low" := by
    intro s hs
    simp only [List.mem_map] at hs
    rcases hs with ⟨r, hmem, rfl⟩
    rcases hr r hmem with h1 | h1 | h1 <;> rw [h1] <;> simp [jsStringOr]
  unfold calculateConfidenceScore specCombinedConfidence
  rw [labelScore_eq_specAverage _ heL, labelScore_eq_specAverage _ hrL,
    classificationScoreOf_eq_spec]
  congr 1
  congr 1
  ring

/-- Witness for C8 at one entity, no relationships, one classification
category. -/
theorem claim_C8_witness :
    calculateConfidenceScore [⟨"Alpha", "person", some 2, some "high"⟩] []
        [⟨"HUMINT", some 80⟩] =
      specCombinedConfidence
        ([(⟨"Alpha", "person", some 2, some "high"⟩ : ExtractedEntity)].map
          fun e => jsStringOr e.confidence "low")
        (([] : List ExtractedRelationship).map fun r => jsStringOr r.confidence "low")
        ([(⟨"HUMINT", some 80⟩ : ClassificationCategory)].map
          fun c => c.confidence.getD 0) :=
  claim_C8_confidence_score_formula _ _ _ (by decide) (by decide)
    (by
      intro c hcm
      rw [List.mem_singleton] at hcm
      subst hcm
      exact ⟨80, rfl, by norm_num, by norm_num⟩)

/-- The analysis result record (`DocumentAnalysisResult` in analyzer.ts). -/
structure DocumentAnalysisResult where
  summary : String
  entities : List ExtractedEntity
  relationships : List ExtractedRelationship
  classification : List ClassificationCategory
  confidence : ℚ
deriving DecidableEq, Repr

/-- `DocumentAnalyzer.analyzeDocument`: `Promise.all` of the four independent
sub-extractions.  If every call resolves, the combined confidence is computed
and the result returned; if any call rejects, `Promise.all` rejects and the
surrounding catch throws `Failed to analyze document`.  Each sub-extraction is
abstracted as its outcome (`Except`), since it is a network call. -/
def analyzeDocument (summaryR : Except String String)
    (entitiesR : Except String (List ExtractedEntity))
    (relationshipsR : Except String (List ExtractedRelationship))
    (classificationR : Except String (List ClassificationCategory)) :
    Except String DocumentAnalysisResult :=
  match summaryR, entitiesR, relationshipsR, classificationR with
  | .ok s, .ok es, .ok rs, .ok cs =>
    .ok ⟨s, es, rs, cs, calculateConfidenceScore es rs cs⟩
  | _, _, _, _ => .error "Failed to analyze document"

end Analyzer

namespace Indexer

/-- Queue item status (`QueueItem.status` in indexer.ts). -/
inductive QStatus
  | pending
  | processing
  | completed
  | failed
deriving DecidableEq, Repr

/-- A queue item (`QueueItem` in indexer.ts).  Document identifiers are UUIDs
in the source; their only used property is freshness, modelled by a counter. -/
structure QueueItem where
  documentId : Nat
  title : String
  status : QStatus
  progress : Nat
  error : Option String
  startTime : Option Nat
  endTime : Option Nat
deriving DecidableEq, Repr

/-- The mutable fields of `IndexerService`, plus `batch`: the set of items
whose `processDocument` promises the drain loop is currently awaiting
(`Promise.all(processingPromises)`).  `processing` is the `this.processing`
flag. -/
structure IndexerState where
  queue : List QueueItem
  processing : Bool
  concurrentProcessing : Nat
  maxQueueSize : Nat
  batch : Option (List Nat)
  nextId : Nat
deriving DecidableEq, Repr

/-- Field initialisers of `IndexerService`. -/
def initialState : IndexerState :=
  { queue := [], processing := false, concurrentProcessing := 1, maxQueueSize := 100,
    batch := none, nextId := 0 }

/-- `this.queue.filter(item => item.status === 'pending').slice(0, k)` followed
by the synchronous prefix of `processDocument` on each selected item (status →
`processing`, start timestamp, first progress update): the first `k` pending
items are marked in place; the marked items' identifiers are returned with the
updated queue. -/
def markFirstPending (now : Nat) : Nat → List QueueItem → List QueueItem × List Nat
  | _, [] => ([], [])
  | 0, q => (q, [])
  | k + 1, it :: rest =>
    if it.status = .pending then
      let r := markFirstPending now k rest
      ({ it with status := .processing, progress := 10, startTime := some now } :: r.1,
        it.documentId :: r.2)
    else
      let r := markFirstPending now (k + 1) rest
      (it :: r.1, r.2)

/-- One iteration head of the `processQueue` drain loop: select up to
`concurrentProcessing` pending items and start them.  When nothing is pending
(or the queue is empty) the loop exits and `this.processing` is reset in the
`finally` block. -/
def startBatch (now : Nat) (s : IndexerState) : IndexerState :=
  if (markFirstPending now s.concurrentProcessing s.queue).2.isEmpty then
    { s with
      queue := (markFirstPending now s.concurrentProcessing s.queue).1
      processing := false
      batch := none }
  else
    { s with
      queue := (markFirstPending now s.concurrentProcessing s.queue).1
      processing := true
      batch := some (markFirstPending now s.concurrentProcessing s.queue).2 }

/-- Whether some queue item with this identifier is currently `processing`. -/
def isProcessingId (q : List QueueItem) (id : Nat) : Bool :=
  q.any fun it => decide (it.documentId = id ∧ it.status = .processing)

/-- The events of the coordinator: each is one synchronous segment of
indexer.ts between `await` suspension points.
* `enqueue` — `queueDocument` (which also starts the drain loop when it is not
  running; the document's `content` is carried but, as in the source, never
  stored);
* `finishOk` / `finishFail` — the tail of `processDocument` for one in-flight
  item: the success path or the catch block;
* `loopIter` — the drain loop resuming after `Promise.all` resolves: select the
  next batch, or exit;
* the remaining events are the public synchronous mutators. -/
inductive Event
  | enqueue (title content : String) (now : Nat)
  | finishOk (id : Nat) (now : Nat)
  | finishFail (id : Nat) (msg : String) (now : Nat)
  | loopIter (now : Nat)
  | clearCompletedAndFailed
  | removeFromQueue (id : Nat)
  | setConcurrentProcessing (limit : Int)
  | setMaxQueueSize (size : Int)

/-- The `pending` queue item and the appended queue of `queueDocument`
(`documentId` is the fresh uuid, modelled by the counter). -/
def enqueueState (s : IndexerState) (title : String) : IndexerState :=
  { s with
    queue := s.queue ++ [⟨s.nextId, title, .pending, 0, none, none, none⟩]
    nextId := s.nextId + 1 }

/-- The success tail of `processDocument` applied to one queue item. -/
def completeItem (id now : Nat) (it : QueueItem) : QueueItem :=
  if it.documentId = id ∧ it.status = .processing then
    { it with status := .completed, progress := 100, endTime := some now }
  else it

/-- The catch block of `processDocument` applied to one queue item. -/
def failItem (id : Nat) (msg : String) (now : Nat) (it : QueueItem) : QueueItem :=
  if it.documentId = id ∧ it.status = .processing then
    { it with status := .failed, error := some msg, endTime := some now }
  else it

/-- The transition function: `none` when the event is not enabled in this state
(a guard fails, or — for `enqueue` on a full queue — the call throws without
mutating anything). -/
def step (s : IndexerState) : Event → Option IndexerState
  | .enqueue title _content now =>
    if s.maxQueueSize ≤ s.queue.length then none
    else
      some (if s.processing then enqueueState s title
        else startBatch now (enqueueState s title))
  | .finishOk id now =>
    match s.batch with
    | some l =>
      if id ∈ l ∧ isProcessingId s.queue id then
        some { s with queue := s.queue.map (completeItem id now) }
      else none
    | none => none
  | .finishFail id msg now =>
    match s.batch with
    | some l =>
      if id ∈ l ∧ isProcessingId s.queue id then
        some { s with queue := s.queue.map (failItem id msg now) }
      else none
    | none => none
  | .loopIter now =>
    match s.batch with
    | some l =>
      if s.processing = true ∧ ∀ id ∈ l, isProcessingId s.queue id = false then
        some (startBatch now s)
      else none
    | none => none
  | .clearCompletedAndFailed =>
    some { s with
      queue := s.queue.filter
        (fun it => decide (it.status ≠ .completed ∧ it.status ≠ .failed)) }
  | .removeFromQueue id =>
    some { s with
      queue := s.queue.filter
        (fun it => decide (¬(it.documentId = id ∧ it.status ≠ .processing))) }
  | .setConcurrentProcessing limit =>
    some { s with
      concurrentProcessing :=
        (if limit < 1 then 1 else if 10 < limit then 10 else limit).toNat }
  | .setMaxQueueSize size =>
    some { s with maxQueueSize := (if size < 10 then 10 else size).toNat }

/-- States reachable from the freshly constructed service. -/
inductive Reachable : IndexerState → Prop
  | init : Reachable initialState
  | next : ∀ {s e s'}, Reachable s → step s e = some s' → Reachable s'

/-- Restriction used by the amended C6: `setConcurrentProcessing` is only
called while no batch is in flight. -/
def quietFor (s : IndexerState) : Event → Prop
  | .setConcurrentProcessing _ => s.batch = none
  | _ => True

/-- States reachable when the concurrency limit is never changed mid-batch. -/
inductive ReachableQuiet : IndexerState → Prop
  | init : ReachableQuiet initialState
  | next : ∀ {s e s'}, ReachableQuiet s → quietFor s e → step s e = some s' →
      ReachableQuiet s'

/-- Number of queue items currently `processing`. -/
def processingCount (q : List QueueItem) : Nat :=
  (q.filter fun it => decide (it.status = .processing)).length

/-- Status of the queue item with the given identifier. -/
def statusOf (q : List QueueItem) (id : Nat) : Option QStatus :=
  (q.find? fun it => decide (it.documentId = id)).map (·.status)

/-- The transitions a single item's status may take in one step: unchanged,
`pending → processing` (batch selection), or `processing → completed/failed`
(the end of `processDocument`). -/
def StatusStep (σ σ' : QStatus) : Prop :=
  σ' = σ ∨ (σ = .pending ∧ σ' = .processing) ∨
    (σ = .processing ∧ (σ' = .completed ∨ σ' = .failed))

theorem statusStep_refl (σ : QStatus) : StatusStep σ σ := Or.inl rfl

theorem markFirstPending_ids (now : Nat) :
    ∀ (q : List QueueItem) (k : Nat),
      ((markFirstPending now k q).1).map (·.documentId) = q.map (·.documentId) := by
  intro q
  induction q with
  | nil => intro k; cases k <;> simp [markFirstPending]
  | cons it rest ih =>
    intro k
    cases k with
    | zero => simp [markFirstPending]
    | succ n =>
      by_cases h : it.status = .pending
      · simp [markFirstPending, h, ih n]
      · simp [markFirstPending, h, ih (n + 1)]

theorem markFirstPending_nil_of_no_ids (now : Nat) :
    ∀ (q : List QueueItem) (k : Nat), (markFirstPending now k q).2 = [] →
      (markFirstPending now k q).1 = q := by
  intro q
  induction q with
  | nil => intro k _; cases k <;> rfl
  | cons it rest ih =>
    intro k
    cases k with
    | zero => intro _; rfl
    | succ n =>
      by_cases h : it.status = .pending
      · simp [markFirstPending, h]
      · intro h2
        simp only [markFirstPending, if_neg h] at h2 ⊢
        rw [ih (n + 1) h2]

theorem markFirstPending_evolve (now : Nat) :
    ∀ (q : List QueueItem) (k : Nat), ∀ it' ∈ (markFirstPending now k q).1,
      ∃ it ∈ q, it.documentId = it'.documentId ∧ StatusStep it.status it'.status := by
  intro q
  induction q with
  | nil => intro k it' hm; cases k <;> simp [markFirstPending] at hm
  | cons it rest ih =>
    intro k it' hm
    cases k with
    | zero =>
      exact ⟨it', by simpa [markFirstPending] using hm, rfl, statusStep_refl _⟩
    | succ n =>
      by_cases h : it.status = .pending
      · simp only [markFirstPending, if_pos h] at hm
        rcases List.mem_cons.mp hm with rfl | hm'
        · exact ⟨it, List.mem_cons_self it rest, rfl, Or.inr (Or.inl ⟨h, rfl⟩)⟩
        · rcases ih n it' hm' with ⟨it₀, hit₀, hid, hst⟩
          exact ⟨it₀, List.mem_cons_of_mem it hit₀, hid, hst⟩
      · simp only [markFirstPending, if_neg h] at hm
        rcases List.mem_cons.mp hm with rfl | hm'
        · exact ⟨it', List.mem_cons_self it' rest, rfl, statusStep_refl _⟩
        · rcases ih (n + 1) it' hm' with ⟨it₀, hit₀, hid, hst⟩
          exact ⟨it₀, List.mem_cons_of_mem it hit₀, hid, hst⟩

theorem processingCount_cons (it : QueueItem) (q : List QueueItem) :
    processingCount (it :: q) =
      processingCount q + (if it.status = .processing then 1 else 0) := by
  by_cases h : it.status = .processing <;>
    simp [processingCount, List.filter_cons, h]

theorem processingCount_eq_zero (q : List QueueItem) (h : processingCount q = 0) :
    ∀ it ∈ q, it.status ≠ .processing := by
  intro it hm hs
  unfold processingCount at h
  rw [List.length_eq_zero] at h
  have hmem : it ∈ q.filter fun it => decide (it.status = .processing) :=
    List.mem_filter.mpr ⟨hm, by simp [hs]⟩
  rw [h] at hmem
  exact absurd hmem (List.not_mem_nil it)

theorem markFirstPending_count (now : Nat) :
    ∀ (q : List QueueItem) (k : Nat), processingCount q = 0 →
      processingCount (markFirstPending now k q).1 ≤ k := by
  intro q
  induction q with
  | nil => intro k _; cases k <;> simp [markFirstPending, processingCount]
  | cons it rest ih =>
    intro k hq
    rw [processingCount_cons] at hq
    have hrest : processingCount rest = 0 := by omega
    have hit : (if it.status = .processing then 1 else 0) = 0 := by omega
    cases k with
    | zero =>
      simp only [markFirstPending]
      rw [processingCount_cons]
      omega
    | succ n =>
      by_cases h : it.status = .pending
      · simp only [markFirstPending, if_pos h]
        rw [processingCount_cons]
        have := ih n hrest
        simp only [if_true]
        omega
      · simp only [markFirstPending, if_neg h]
        rw [processingCount_cons]
        have := ih (n + 1) hrest
        omega

theorem markFirstPending_marked (now : Nat) :
    ∀ (q : List QueueItem) (k : Nat), processingCount q = 0 →
      ∀ it' ∈ (markFirstPending now k q).1, it'.status = .processing →
        it'.documentId ∈ (markFirstPending now k q).2 := by
  intro q
  induction q with
  | nil => intro k _ it' hm; cases k <;> simp [markFirstPending] at hm
  | cons it rest ih =>
    intro k hq it' hm hs
    rw [processingCount_cons] at hq
    have hrest : processingCount rest = 0 := by omega
    have hit : it.status ≠ .processing := by
      intro hcon
      rw [if_pos hcon] at hq
      omega
    cases k with
    | zero =>
      simp only [markFirstPending] at hm
      exact absurd hs (processingCount_eq_zero _ (by rw [processingCount_cons]; omega) it' hm)
    | succ n =>
      by_cases h : it.status = .pending
      · simp only [markFirstPending, if_pos h] at hm ⊢
        rcases List.mem_cons.mp hm with rfl | hm'
        · exact List.mem_cons_self _ _
        · exact List.mem_cons_of_mem _ (ih n hrest it' hm' hs)
      · simp only [markFirstPending, if_neg h] at hm ⊢
        rcases List.mem_cons.mp hm with rfl | hm'
        · exact absurd hs hit
        · exact ih (n + 1) hrest it' hm' hs

theorem processingCount_filter_le (q : List QueueItem) (p : QueueItem → Bool) :
    processingCount (q.filter p) ≤ processingCount q := by
  unfold processingCount
  exact ((List.filter_sublist q).filter _).length_le

theorem processingCount_map_le (f : QueueItem → QueueItem)
    (hf : ∀ it, (f it).status = .processing → it.status = .processing) :
    ∀ q : List QueueItem, processingCount (q.map f) ≤ processingCount q := by
  intro q
  induction q with
  | nil => simp [processingCount]
  | cons it rest ih =>
    rw [List.map_cons, processingCount_cons, processingCount_cons]
    by_cases h : (f it).status = .processing
    · rw [if_pos h, if_pos (hf it h)]
      omega
    · rw [if_neg h]
      split <;> omega

theorem processingCount_append_single (q : List QueueItem) (it : QueueItem)
    (h : it.status ≠ .processing) :
    processingCount (q ++ [it]) = processingCount q := by
  unfold processingCount
  rw [List.filter_append]
  simp [List.filter_cons, h]

theorem processingCount_zero_of_none (q : List QueueItem)
    (h : ∀ it ∈ q, it.status ≠ .processing) : processingCount q = 0 := by
  unfold processingCount
  rw [List.length_eq_zero]
  rw [List.filter_eq_nil_iff]
  intro it hm
  simp [h it hm]

theorem isProcessingId_eq_true {q : List QueueItem} {it : QueueItem} (hm : it ∈ q)
    (hs : it.status = .processing) : isProcessingId q it.documentId = true := by
  unfold isProcessingId
  rw [List.any_eq_true]
  exact ⟨it, hm, by simp [hs]⟩

/-- The state invariant of the coordinator: identifiers are fresh and distinct,
a stopped loop has no batch and nothing `processing`, every `processing` item
belongs to the in-flight batch, the concurrency limit stays in `[1, 10]`, and
at most ten items are `processing`. -/
structure Inv (s : IndexerState) : Prop where
  ids_lt : ∀ it ∈ s.queue, it.documentId < s.nextId
  ids_nodup : (s.queue.map (·.documentId)).Nodup
  flag_batch : s.processing = false → s.batch = none
  batch_none : s.batch = none → processingCount s.queue = 0
  batch_some : ∀ l, s.batch = some l → ∀ it ∈ s.queue, it.status = .processing →
    it.documentId ∈ l
  conc_ge : 1 ≤ s.concurrentProcessing
  conc_le : s.concurrentProcessing ≤ 10
  count_le : processingCount s.queue ≤ 10

theorem inv_init : Inv initialState := by
  refine ⟨?_, ?_, ?_, ?_, ?_, ?_, ?_, ?_⟩ <;> simp [initialState, processingCount]

theorem inv_startBatch (now : Nat) (s : IndexerState) (hinv : Inv s)
    (hcount : processingCount s.queue = 0) : Inv (startBatch now s) := by
  unfold startBatch
  split
  · rename_i hempty
    have hnil : (markFirstPending now s.concurrentProcessing s.queue).2 = [] :=
      List.isEmpty_iff.mp hempty
    have hq : (markFirstPending now s.concurrentProcessing s.queue).1 = s.queue :=
      markFirstPending_nil_of_no_ids now s.queue s.concurrentProcessing hnil
    exact ⟨fun it hm => hinv.ids_lt it (hq ▸ hm), by rw [hq]; exact hinv.ids_nodup,
      fun _ => rfl, fun _ => by rw [hq]; exact hcount,
      fun l hl => by simp at hl, hinv.conc_ge, hinv.conc_le,
      by rw [hq]; exact hinv.count_le⟩
  · refine ⟨?_, ?_, ?_, ?_, ?_, hinv.conc_ge, hinv.conc_le, ?_⟩
    · intro it hm
      have hmem : it.documentId ∈
          ((markFirstPending now s.concurrentProcessing s.queue).1).map (·.documentId) :=
        List.mem_map_of_mem _ hm
      rw [markFirstPending_ids] at hmem
      rcases List.mem_map.mp hmem with ⟨it₀, h₀, hid⟩
      rw [← hid]
      exact hinv.ids_lt it₀ h₀
    · show ((markFirstPending now s.concurrentProcessing s.queue).1.map (·.documentId)).Nodup
      rw [markFirstPending_ids]
      exact hinv.ids_nodup
    · intro hfalse
      simp at hfalse
    · intro hnone
      simp at hnone
    · intro l hl it hm hs
      have hl2 : l = (markFirstPending now s.concurrentProcessing s.queue).2 := by
        injection hl with h
        exact h.symm
      rw [hl2]
      exact markFirstPending_marked now s.queue s.concurrentProcessing hcount it hm hs
    · calc processingCount (markFirstPending now s.concurrentProcessing s.queue).1
          ≤ s.concurrentProcessing :=
            markFirstPending_count now s.queue s.concurrentProcessing hcount
        _ ≤ 10 := hinv.conc_le

theorem completeItem_id (id now : Nat) (it : QueueItem) :
    (completeItem id now it).documentId = it.documentId := by
  unfold completeItem
  split <;> rfl

theorem completeItem_processing (id now : Nat) (it : QueueItem)
    (h : (completeItem id now it).status = .processing) : it.status = .processing := by
  unfold completeItem at h
  split at h
  · simp at h
  · exact h

theorem completeItem_statusStep (id now : Nat) (it : QueueItem) :
    StatusStep it.status (completeItem id now it).status := by
  unfold completeItem
  split
  · rename_i hc
    exact Or.inr (Or.inr ⟨hc.2, Or.inl rfl⟩)
  · exact statusStep_refl _

theorem failItem_id (id : Nat) (msg : String) (now : Nat) (it : QueueItem) :
    (failItem id msg now it).documentId = it.documentId := by
  unfold failItem
  split <;> rfl

theorem failItem_processing (id : Nat) (msg : String) (now : Nat) (it : QueueItem)
    (h : (failItem id msg now it).status = .processing) : it.status = .processing := by
  unfold failItem at h
  split at h
  · simp at h
  · exact h

theorem failItem_statusStep (id : Nat) (msg : String) (now : Nat) (it : QueueItem) :
    StatusStep it.status (failItem id msg now it).status := by
  unfold failItem
  split
  · rename_i hc
    exact Or.inr (Or.inr ⟨hc.2, Or.inr rfl⟩)
  · exact statusStep_refl _

theorem map_ids_preserved (f : QueueItem → QueueItem)
    (hf : ∀ it, (f it).documentId = it.documentId) (q : List QueueItem) :
    (q.map f).map (·.documentId) = q.map (·.documentId) := by
  induction q with
  | nil => rfl
  | cons it rest ih => simp [hf it, ih]

theorem inv_enqueueState (s : IndexerState) (title : String) (hinv : Inv s) :
    Inv (enqueueState s title) := by
  have hpend : (⟨s.nextId, title, .pending, 0, none, none, none⟩ : QueueItem).status ≠
      .processing := by simp
  refine ⟨?_, ?_, hinv.flag_batch, ?_, ?_, hinv.conc_ge, hinv.conc_le, ?_⟩
  · intro it hm
    simp only [enqueueState, List.mem_append, List.mem_singleton] at hm
    show it.documentId < s.nextId + 1
    rcases hm with hm | rfl
    · have := hinv.ids_lt it hm
      omega
    · simp
  · show ((s.queue ++ [(⟨s.nextId, title, .pending, 0, none, none, none⟩ : QueueItem)]).map
      (·.documentId)).Nodup
    rw [List.map_append]
    rw [List.nodup_append]
    refine ⟨hinv.ids_nodup, List.nodup_singleton _, ?_⟩
    intro a ha hb
    simp only [List.map_cons, List.map_nil, List.mem_singleton] at hb
    subst hb
    rcases List.mem_map.mp ha with ⟨it₀, h₀, hid⟩
    have := hinv.ids_lt it₀ h₀
    omega
  · intro hn
    show processingCount (s.queue ++ [_]) = 0
    rw [processingCount_append_single _ _ hpend]
    exact hinv.batch_none hn
  · intro l hl it hm hs
    simp only [enqueueState, List.mem_append, List.mem_singleton] at hm
    rcases hm with hm | rfl
    · exact hinv.batch_some l hl it hm hs
    · exact absurd hs hpend
  · show processingCount (s.queue ++ [_]) ≤ 10
    rw [processingCount_append_single _ _ hpend]
    exact hinv.count_le

theorem inv_step {s : IndexerState} {e : Event} {s' : IndexerState}
    (hinv : Inv s) (h : step s e = some s') : Inv s' := by
  cases e with
  | enqueue title content now =>
    simp only [step] at h
    split at h
    · simp at h
    · injection h with h
      subst h
      by_cases hp : s.processing = true
      · rw [if_pos hp]
        exact inv_enqueueState s title hinv
      · rw [if_neg hp]
        apply inv_startBatch now _ (inv_enqueueState s title hinv)
        have hb := hinv.flag_batch (by simpa using hp)
        have h0 := hinv.batch_none hb
        show processingCount (s.queue ++ [_]) = 0
        rw [processingCount_append_single _ _ (by simp)]
        exact h0
  | finishOk id now =>
    simp only [step] at h
    cases hb : s.batch with
    | none => rw [hb] at h; simp at h
    | some l =>
      rw [hb] at h
      dsimp only at h
      split at h
      · injection h with h
        subst h
        refine ⟨?_, ?_, ?_, ?_, ?_, hinv.conc_ge, hinv.conc_le, ?_⟩
        · intro it hm
          simp only [List.mem_map] at hm
          rcases hm with ⟨it₀, h₀, rfl⟩
          rw [completeItem_id]
          exact hinv.ids_lt it₀ h₀
        · show ((s.queue.map (completeItem id now)).map (·.documentId)).Nodup
          rw [map_ids_preserved _ (completeItem_id id now)]
          exact hinv.ids_nodup
        · intro hf
          show (some l : Option (List Nat)) = none
          rw [← hb]
          exact hinv.flag_batch hf
        · intro hn
          exact absurd hn (by simp)
        · intro l' hl' it hm hs
          have hll : l' = l := by
            injection hl' with h2
            exact h2.symm
          subst hll
          simp only [List.mem_map] at hm
          rcases hm with ⟨it₀, h₀, rfl⟩
          rw [completeItem_id]
          exact hinv.batch_some _ hb it₀ h₀ (completeItem_processing id now it₀ hs)
        · exact le_trans
            (processingCount_map_le _ (completeItem_processing id now) s.queue)
            hinv.count_le
      · simp at h
  | finishFail id msg now =>
    simp only [step] at h
    cases hb : s.batch with
    | none => rw [hb] at h; simp at h
    | some l =>
      rw [hb] at h
      dsimp only at h
      split at h
      · injection h with h
        subst h
        refine ⟨?_, ?_, ?_, ?_, ?_, hinv.conc_ge, hinv.conc_le, ?_⟩
        · intro it hm
          simp only [List.mem_map] at hm
          rcases hm with ⟨it₀, h₀, rfl⟩
          rw [failItem_id]
          exact hinv.ids_lt it₀ h₀
        · show ((s.queue.map (failItem id msg now)).map (·.documentId)).Nodup
          rw [map_ids_preserved _ (failItem_id id msg now)]
          exact hinv.ids_nodup
        · intro hf
          show (some l : Option (List Nat)) = none
          rw [← hb]
          exact hinv.flag_batch hf
        · intro hn
          exact absurd hn (by simp)
        · intro l' hl' it hm hs
          have hll : l' = l := by
            injection hl' with h2
            exact h2.symm
          subst hll
          simp only [List.mem_map] at hm
          rcases hm with ⟨it₀, h₀, rfl⟩
          rw [failItem_id]
          exact hinv.batch_some _ hb it₀ h₀ (failItem_processing id msg now it₀ hs)
        · exact le_trans
            (processingCount_map_le _ (failItem_processing id msg now) s.queue)
            hinv.count_le
      · simp at h
  | loopIter now =>
    simp only [step] at h
    cases hb : s.batch with
    | none => rw [hb] at h; simp at h
    | some l =>
      rw [hb] at h
      dsimp only at h
      split at h
      · rename_i hg
        injection h with h
        subst h
        apply inv_startBatch now s hinv
        apply processingCount_zero_of_none
        intro it hm hs
        have hid : it.documentId ∈ l := hinv.batch_some l hb it hm hs
        have htrue := isProcessingId_eq_true hm hs
        have hfalse := hg.2 it.documentId hid
        rw [htrue] at hfalse
        exact Bool.noConfusion hfalse
      · simp at h
  | clearCompletedAndFailed =>
    simp only [step] at h
    injection h with h
    subst h
    refine ⟨?_, ?_, hinv.flag_batch, ?_, ?_, hinv.conc_ge, hinv.conc_le, ?_⟩
    · intro it hm
      exact hinv.ids_lt it (List.mem_of_mem_filter hm)
    · exact List.Nodup.sublist ((List.filter_sublist _).map _) hinv.ids_nodup
    · intro hn
      have h1 := processingCount_filter_le s.queue
        (fun it => decide (it.status ≠ .completed ∧ it.status ≠ .failed))
      have h2 := hinv.batch_none hn
      dsimp only
      omega
    · intro l' hl' it hm hs
      exact hinv.batch_some l' hl' it (List.mem_of_mem_filter hm) hs
    · exact le_trans (processingCount_filter_le s.queue _) hinv.count_le
  | removeFromQueue id =>
    simp only [step] at h
    injection h with h
    subst h
    refine ⟨?_, ?_, hinv.flag_batch, ?_, ?_, hinv.conc_ge, hinv.conc_le, ?_⟩
    · intro it hm
      exact hinv.ids_lt it (List.mem_of_mem_filter hm)
    · exact List.Nodup.sublist ((List.filter_sublist _).map _) hinv.ids_nodup
    · intro hn
      have h1 := processingCount_filter_le s.queue
        (fun it => decide (¬(it.documentId = id ∧ it.status ≠ .processing)))
      have h2 := hinv.batch_none hn
      dsimp only
      omega
    · intro l' hl' it hm hs
      exact hinv.batch_some l' hl' it (List.mem_of_mem_filter hm) hs
    · exact le_trans (processingCount_filter_le s.queue _) hinv.count_le
  | setConcurrentProcessing limit =>
    simp only [step] at h
    injection h with h
    subst h
    refine ⟨hinv.ids_lt, hinv.ids_nodup, hinv.flag_batch, hinv.batch_none,
      hinv.batch_some, ?_, ?_, hinv.count_le⟩
    · show 1 ≤ (if limit < 1 then 1 else if 10 < limit then 10 else limit).toNat
      by_cases h1 : limit < 1
      · simp [h1]
      · by_cases h2 : 10 < limit <;> simp [h1, h2] <;> omega
    · show (if limit < 1 then 1 else if 10 < limit then 10 else limit).toNat ≤ 10
      by_cases h1 : limit < 1
      · simp [h1]
      · by_cases h2 : 10 < limit <;> simp [h1, h2] <;> omega
  | setMaxQueueSize size =>
    simp only [step] at h
    injection h with h
    subst h
    exact ⟨hinv.ids_lt, hinv.ids_nodup, hinv.flag_batch, hinv.batch_none,
      hinv.batch_some, hinv.conc_ge, hinv.conc_le, hinv.count_le⟩

theorem inv_reachable {s : IndexerState} (h : Reachable s) : Inv s := by
  induction h with
  | init => exact inv_init
  | next _ hstep ih => exact inv_step ih hstep

/-- One step relates the old and new queue item-wise: every item of the new
queue either evolves (by an allowed status transition) from an old item with
the same identifier, or carries an identifier absent from the old queue (a
fresh enqueue). -/
def StatusEvolves (q q' : List QueueItem) : Prop :=
  ∀ it' ∈ q', (∃ it ∈ q, it.documentId = it'.documentId ∧ StatusStep it.status it'.status) ∨
    ∀ it ∈ q, it.documentId ≠ it'.documentId

theorem statusEvolves_refl (q : List QueueItem) : StatusEvolves q q :=
  fun it' hm => Or.inl ⟨it', hm, rfl, statusStep_refl _⟩

theorem statusEvolves_filter (q : List QueueItem) (p : QueueItem → Bool) :
    StatusEvolves q (q.filter p) :=
  fun it' hm => Or.inl ⟨it', List.mem_of_mem_filter hm, rfl, statusStep_refl _⟩

theorem statusEvolves_map (q : List QueueItem) (f : QueueItem → QueueItem)
    (hid : ∀ it, (f it).documentId = it.documentId)
    (hst : ∀ it, StatusStep it.status (f it).status) :
    StatusEvolves q (q.map f) := by
  intro it' hm
  rcases List.mem_map.mp hm with ⟨it, hmem, rfl⟩
  exact Or.inl ⟨it, hmem, (hid it).symm, hst it⟩

theorem statusEvolves_mark (now k : Nat) (q : List QueueItem) :
    StatusEvolves q (markFirstPending now k q).1 := by
  intro it' hm
  rcases markFirstPending_evolve now q k it' hm with ⟨it, hmem, hid, hst⟩
  exact Or.inl ⟨it, hmem, hid, hst⟩

theorem statusEvolves_enqueue (s : IndexerState) (title : String) (hinv : Inv s) :
    StatusEvolves s.queue (enqueueState s title).queue := by
  intro it' hm
  simp only [enqueueState, List.mem_append, List.mem_singleton] at hm
  rcases hm with hm | rfl
  · exact Or.inl ⟨it', hm, rfl, statusStep_refl _⟩
  · refine Or.inr fun it hmem => ?_
    have := hinv.ids_lt it hmem
    show it.documentId ≠ s.nextId
    omega

theorem statusEvolves_enqueue_mark (s : IndexerState) (title : String) (now k : Nat)
    (hinv : Inv s) :
    StatusEvolves s.queue (markFirstPending now k (enqueueState s title).queue).1 := by
  intro it' hm
  rcases markFirstPending_evolve now _ k it' hm with ⟨it, hmem, hid, hst⟩
  simp only [enqueueState, List.mem_append, List.mem_singleton] at hmem
  rcases hmem with hmem | rfl
  · exact Or.inl ⟨it, hmem, hid, hst⟩
  · refine Or.inr fun it₂ hmem₂ => ?_
    have hlt := hinv.ids_lt it₂ hmem₂
    rw [← hid]
    show it₂.documentId ≠ s.nextId
    omega

theorem startBatch_queue (now : Nat) (s : IndexerState) :
    (startBatch now s).queue = (markFirstPending now s.concurrentProcessing s.queue).1 := by
  unfold startBatch
  split <;> rfl

theorem step_statusEvolves {s : IndexerState} {e : Event} {s' : IndexerState}
    (hinv : Inv s) (h : step s e = some s') : StatusEvolves s.queue s'.queue := by
  cases e with
  | enqueue title content now =>
    simp only [step] at h
    split at h
    · simp at h
    · injection h with h
      subst h
      by_cases hp : s.processing = true
      · rw [if_pos hp]
        exact statusEvolves_enqueue s title hinv
      · rw [if_neg hp]
        rw [startBatch_queue]
        exact statusEvolves_enqueue_mark s title now _ hinv
  | finishOk id now =>
    simp only [step] at h
    cases hb : s.batch with
    | none => rw [hb] at h; simp at h
    | some l =>
      rw [hb] at h
      dsimp only at h
      split at h
      · injection h with h
        subst h
        exact statusEvolves_map s.queue _ (completeItem_id id now)
          (completeItem_statusStep id now)
      · simp at h
  | finishFail id msg now =>
    simp only [step] at h
    cases hb : s.batch with
    | none => rw [hb] at h; simp at h
    | some l =>
      rw [hb] at h
      dsimp only at h
      split at h
      · injection h with h
        subst h
        exact statusEvolves_map s.queue _ (failItem_id id msg now)
          (failItem_statusStep id msg now)
      · simp at h
  | loopIter now =>
    simp only [step] at h
    cases hb : s.batch with
    | none => rw [hb] at h; simp at h
    | some l =>
      rw [hb] at h
      dsimp only at h
      split at h
      · injection h with h
        subst h
        rw [startBatch_queue]
        exact statusEvolves_mark now _ s.queue
      · simp at h
  | clearCompletedAndFailed =>
    simp only [step] at h
    injection h with h
    subst h
    exact statusEvolves_filter s.queue _
  | removeFromQueue id =>
    simp only [step] at h
    injection h with h
    subst h
    exact statusEvolves_filter s.queue _
  | setConcurrentProcessing limit =>
    simp only [step] at h
    injection h with h
    subst h
    exact statusEvolves_refl s.queue
  | setMaxQueueSize size =>
    simp only [step] at h
    injection h with h
    subst h
    exact statusEvolves_refl s.queue

theorem statusOf_statusStep {q q' : List QueueItem}
    (hnd : (q.map (·.documentId)).Nodup) (hev : StatusEvolves q q') {id : Nat}
    {σ σ' : QStatus} (h1 : statusOf q id = some σ) (h2 : statusOf q' id = some σ') :
    StatusStep σ σ' := by
  unfold statusOf at h1 h2
  cases hf1 : q.find? (fun it => decide (it.documentId = id)) with
  | none => rw [hf1] at h1; simp at h1
  | some it₀ =>
    rw [hf1] at h1
    cases hf2 : q'.find? (fun it => decide (it.documentId = id)) with
    | none => rw [hf2] at h2; simp at h2
    | some it' =>
      rw [hf2] at h2
      have hσ : σ = it₀.status := by
        simpa using h1.symm
      have hσ' : σ' = it'.status := by
        simpa using h2.symm
      subst hσ hσ'
      have hm0 : it₀ ∈ q := List.mem_of_find?_eq_some hf1
      have hid0 : it₀.documentId = id := by simpa using List.find?_some hf1
      have hm' : it' ∈ q' := List.mem_of_find?_eq_some hf2
      have hid' : it'.documentId = id := by simpa using List.find?_some hf2
      rcases hev it' hm' with ⟨it, hmem, hideq, hstep⟩ | hnone
      · have heq : it = it₀ :=
          List.inj_on_of_nodup_map hnd hmem hm0 (by rw [hideq, hid', hid0])
        rw [← heq]
        exact hstep
      · exact absurd (hid0.trans hid'.symm) (hnone it₀ hm0)

/-- C5: along any step of the coordinator from a reachable state, a queue
item's status either stays, advances `pending → processing` (batch selection),
or advances `processing → completed/failed` (the end of `processDocument`); no
operation ever sets a `completed` or `failed` item back to `pending` or
`processing`.  Removal events delete items; they never change a surviving
item's status. -/
theorem claim_C5_status_monotonic {s : IndexerState} {e : Event} {s' : IndexerState}
    (hr : Reachable s) (hs : step s e = some s') (id : Nat) (σ σ' : QStatus)
    (h1 : statusOf s.queue id = some σ) (h2 : statusOf s'.queue id = some σ') :
    σ' = σ ∨ (σ = .pending ∧ σ' = .processing) ∨
      (σ = .processing ∧ (σ' = .completed ∨ σ' = .failed)) :=
  statusOf_statusStep (inv_reachable hr).ids_nodup
    (step_statusEvolves (inv_reachable hr) hs) h1 h2

/-- The state after enqueueing one document into the fresh service: its item is
already `processing` (the drain loop starts synchronously). -/
def exampleState1 : IndexerState :=
  ⟨[⟨0, "A", .processing, 10, none, some 0, none⟩], true, 1, 100, some [0], 1⟩

/-- `exampleState1` after the document's pipeline succeeds. -/
def exampleState2 : IndexerState :=
  ⟨[⟨0, "A", .completed, 100, none, some 0, some 5⟩], true, 1, 100, some [0], 1⟩

/-- Witness for C5: the `finishOk` step from `exampleState1` takes item 0 from
`processing` to `completed`, an allowed transition. -/
theorem claim_C5_witness :
    QStatus.completed = QStatus.processing ∨
      (QStatus.processing = QStatus.pending ∧ QStatus.completed = QStatus.processing) ∨
      (QStatus.processing = QStatus.processing ∧
        (QStatus.completed = QStatus.completed ∨ QStatus.completed = QStatus.failed)) :=
  @claim_C5_status_monotonic exampleState1 (.finishOk 0 5) exampleState2
    (Reachable.next Reachable.init
      (show step initialState (.enqueue "A" "x" 0) = some exampleState1 from by decide))
    (by decide) 0 .processing .completed (by decide) (by decide)

theorem reachableQuiet_reachable {s : IndexerState} (h : ReachableQuiet s) :
    Reachable s := by
  induction h with
  | init => exact Reachable.init
  | next hr hquiet hstep ih => exact Reachable.next ih hstep

theorem startBatch_conc (now : Nat) (s : IndexerState) :
    (startBatch now s).concurrentProcessing = s.concurrentProcessing := by
  unfold startBatch
  split <;> rfl

theorem count_le_conc_step {s : IndexerState} {e : Event} {s' : IndexerState}
    (hinv : Inv s) (hquiet : quietFor s e) (hstep : step s e = some s')
    (hle : processingCount s.queue ≤ s.concurrentProcessing) :
    processingCount s'.queue ≤ s'.concurrentProcessing := by
  cases e with
  | enqueue title content now =>
    simp only [step] at hstep
    split at hstep
    · simp at hstep
    · injection hstep with h
      subst h
      by_cases hp : s.processing = true
      · rw [if_pos hp]
        show processingCount (s.queue ++ [_]) ≤ s.concurrentProcessing
        rw [processingCount_append_single _ _ (by simp)]
        exact hle
      · rw [if_neg hp]
        have hb := hinv.flag_batch (by simpa using hp)
        have h0 : processingCount (enqueueState s title).queue = 0 := by
          show processingCount (s.queue ++ [_]) = 0
          rw [processingCount_append_single _ _ (by simp)]
          exact hinv.batch_none hb
        have hcount := markFirstPending_count now (enqueueState s title).queue
          (enqueueState s title).concurrentProcessing h0
        rw [startBatch_queue, startBatch_conc]
        exact hcount
  | finishOk id now =>
    simp only [step] at hstep
    cases hb : s.batch with
    | none => rw [hb] at hstep; simp at hstep
    | some l =>
      rw [hb] at hstep
      dsimp only at hstep
      split at hstep
      · injection hstep with h
        subst h
        exact le_trans
          (processingCount_map_le _ (completeItem_processing id now) s.queue) hle
      · simp at hstep
  | finishFail id msg now =>
    simp only [step] at hstep
    cases hb : s.batch with
    | none => rw [hb] at hstep; simp at hstep
    | some l =>
      rw [hb] at hstep
      dsimp only at hstep
      split at hstep
      · injection hstep with h
        subst h
        exact le_trans
          (processingCount_map_le _ (failItem_processing id msg now) s.queue) hle
      · simp at hstep
  | loopIter now =>
    simp only [step] at hstep
    cases hb : s.batch with
    | none => rw [hb] at hstep; simp at hstep
    | some l =>
      rw [hb] at hstep
      dsimp only at hstep
      split at hstep
      · rename_i hg
        injection hstep with h
        subst h
        have h0 : processingCount s.queue = 0 := by
          apply processingCount_zero_of_none
          intro it hm hs2
          have hid : it.documentId ∈ l := hinv.batch_some l hb it hm hs2
          have htrue := isProcessingId_eq_true hm hs2
          have hfalse := hg.2 it.documentId hid
          rw [htrue] at hfalse
          exact Bool.noConfusion hfalse
        rw [startBatch_queue, startBatch_conc]
        exact markFirstPending_count now s.queue s.concurrentProcessing h0
      · simp at hstep
  | clearCompletedAndFailed =>
    simp only [step] at hstep
    injection hstep with h
    subst h
    exact le_trans (processingCount_filter_le s.queue _) hle
  | removeFromQueue id =>
    simp only [step] at hstep
    injection hstep with h
    subst h
    exact le_trans (processingCount_filter_le s.queue _) hle
  | setConcurrentProcessing limit =>
    simp only [step] at hstep
    injection hstep with h
    subst h
    have h0 := hinv.batch_none hquiet
    dsimp only
    omega
  | setMaxQueueSize size =>
    simp only [step] at hstep
    injection hstep with h
    subst h
    exact hle

theorem quiet_count_le {s : IndexerState} (h : ReachableQuiet s) :
    processingCount s.queue ≤ s.concurrentProcessing := by
  induction h with
  | init => simp [initialState, processingCount]
  | next hr hquiet hstep ih =>
    exact count_le_conc_step (inv_reachable (reachableQuiet_reachable hr)) hquiet hstep ih

/-- C6 amended: in every reachable state at most ten items (the clamp ceiling)
are `processing` and `concurrentProcessing` always lies in `[1, 10]`; and as
long as `setConcurrentProcessing` is never called while a batch is in flight,
the number of `processing` items never exceeds the current
`concurrentProcessing`.  (Lowering the limit mid-batch breaks the bound as
originally stated — see the counterexample.) -/
theorem claim_C6_bounded_concurrency :
    (∀ s : IndexerState, Reachable s →
      processingCount s.queue ≤ 10 ∧
        1 ≤ s.concurrentProcessing ∧ s.concurrentProcessing ≤ 10) ∧
    ∀ s : IndexerState, ReachableQuiet s →
      processingCount s.queue ≤ s.concurrentProcessing :=
  ⟨fun _ hr => ⟨(inv_reachable hr).count_le, (inv_reachable hr).conc_ge,
    (inv_reachable hr).conc_le⟩,
   fun _ hq => quiet_count_le hq⟩

/-- Witness for C6 at the initial state (reachable both ways). -/
theorem claim_C6_witness :
    processingCount initialState.queue ≤ 10 ∧
      1 ≤ initialState.concurrentProcessing ∧ initialState.concurrentProcessing ≤ 10 ∧
      processingCount initialState.queue ≤ initialState.concurrentProcessing :=
  ⟨(claim_C6_bounded_concurrency.1 initialState Reachable.init).1,
   (claim_C6_bounded_concurrency.1 initialState Reachable.init).2.1,
   (claim_C6_bounded_concurrency.1 initialState Reachable.init).2.2,
   claim_C6_bounded_concurrency.2 initialState ReachableQuiet.init⟩

/-- An execution of the coordinator: fold the events through `step` from the
fresh service; `some` exactly when every event was enabled. -/
def runTrace (events : List Event) : Option IndexerState :=
  events.foldl (fun acc e => acc.bind fun s => step s e) (some initialState)

/-- Enqueue three documents, raise the limit to 2, let the first finish, let
the drain loop start the next batch of two, then lower the limit to 1 while
that batch is in flight. -/
def limitLoweredTrace : List Event :=
  [.enqueue "A" "a" 0, .enqueue "B" "b" 1, .enqueue "C" "c" 2,
   .setConcurrentProcessing 2, .finishOk 0 3, .loopIter 4, .setConcurrentProcessing 1]

/-- C6 counterexample to the claim as stated: at the end of
`limitLoweredTrace` two items hold status `processing` while
`concurrentProcessing` is 1 — `setConcurrentProcessing` takes effect
immediately, but the in-flight batch was sized under the older limit. -/
theorem claim_C6_counterexample :
    (runTrace limitLoweredTrace).map
      (fun s => (processingCount s.queue, s.concurrentProcessing)) = some (2, 1) := by
  decide

/-- A document (`Document` in chunker.ts); identifiers modelled as the
freshness counter value, as for `QueueItem`. -/
structure RawDocument where
  id : Nat
  title : String
  content : String
  source : String
  createdAt : String
deriving DecidableEq, Repr

/-- A document as supplied to `queueDocument` (`Omit<Document, 'id'>`). -/
structure RawDocumentInput where
  title : String
  content : String
  source : String
  createdAt : String
deriving DecidableEq, Repr

/-- The queue item `queueDocument` creates: only `documentId` and `title` of
the caller's document reach the queue. -/
def queueItemOf (documentId : Nat) (doc : RawDocumentInput) : QueueItem :=
  ⟨documentId, doc.title, .pending, 0, none, none, none⟩

/-- The `fullDocument` local that `queueDocument` builds from the caller's
document and the fresh identifier — and then drops: no field of the service
stores it, and `processDocument` never reads it. -/
def fullDocumentOf (documentId : Nat) (doc : RawDocumentInput) : RawDocument :=
  ⟨documentId, doc.title, doc.content, doc.source, doc.createdAt⟩

/-- The string `processDocument` substitutes for the document content. -/
def placeholderContent : String :=
  "This is a placeholder for the document content. In a real system, we would fetch the actual document content from storage."

/-- The `document` record `processDocument` constructs and hands to
`chunkingService.chunkDocument`: its `content` is `placeholderContent`, not
the enqueued content (`createdAt` is `new Date().toISOString()`, abstracted as
a parameter). -/
def fetchedDocument (item : QueueItem) (now : String) : RawDocument :=
  ⟨item.documentId, item.title, placeholderContent, "upload", now⟩

/-- C1: REFUTED on the code — the text handed to the Chunker for a queued
document is always the fixed placeholder string, never the content supplied at
enqueue time (which `queueDocument` builds into `fullDocument` and then
drops).  Stated at the enqueued content `"Hello world"`: the chunker input
differs from it. -/
theorem claim_C1_chunker_input_is_placeholder (id : Nat) (now : String)
    (input : RawDocumentInput) :
    (fetchedDocument (queueItemOf id input) now).content = placeholderContent ∧
    (fullDocumentOf id input).content = input.content ∧
    (fetchedDocument (queueItemOf id ⟨"Field Report", "Hello world", "upload",
      "2024-01-01T00:00:00Z"⟩) now).content ≠ "Hello world" :=
  ⟨rfl, rfl, show placeholderContent ≠ "Hello world" from by decide⟩

/-- The try/catch skeleton of `processDocument` after its item is marked
`processing`: chunking, then — when at least one chunk exists — analysis, then
the vector-store write; the first exception puts the item in `failed` with the
error message, otherwise it ends `completed`.  Each awaited stage is
abstracted by its outcome. -/
def processDocumentOutcome (chunksR : Except String (List (List Char)))
    (analysisR : Except String Analyzer.DocumentAnalysisResult)
    (storeR : Except String Unit) : QStatus × Option String :=
  match chunksR with
  | .error msg => (.failed, some msg)
  | .ok chunks =>
    match (if 0 < chunks.length then analysisR.map fun _ => () else .ok ()) with
    | .error msg => (.failed, some msg)
    | .ok _ =>
      match storeR with
      | .error msg => (.failed, some msg)
      | .ok _ => (.completed, none)

/-- C7 amended: when any of the four enrichment sub-extractions fails hard,
the whole `analyzeDocument` call rejects (`Promise.all`), and `processDocument`
marks the document's queue item `failed` — the Coordinator does not index the
document with the metadata that succeeded.  (Partial tolerance exists only
inside each sub-extraction, for responses that parse badly without throwing.) -/
theorem claim_C7_hard_subfailure_fails_document
    (summaryR : Except String String)
    (entitiesR : Except String (List Analyzer.ExtractedEntity))
    (relationshipsR : Except String (List Analyzer.ExtractedRelationship))
    (classificationR : Except String (List Analyzer.ClassificationCategory))
    (chunks : List (List Char)) (storeR : Except String Unit)
    (hchunks : 0 < chunks.length)
    (herr : (∃ m, summaryR = .error m) ∨ (∃ m, entitiesR = .error m) ∨
      (∃ m, relationshipsR = .error m) ∨ (∃ m, classificationR = .error m)) :
    (processDocumentOutcome (.ok chunks)
      (Analyzer.analyzeDocument summaryR entitiesR relationshipsR classificationR)
      storeR).1 = .failed := by
  have hfail : Analyzer.analyzeDocument summaryR entitiesR relationshipsR classificationR =
      .error "Failed to analyze document" := by
    rcases herr with ⟨m, rfl⟩ | ⟨m, rfl⟩ | ⟨m, rfl⟩ | ⟨m, rfl⟩
    · cases entitiesR <;> cases relationshipsR <;> cases classificationR <;> rfl
    · cases summaryR <;> cases relationshipsR <;> cases classificationR <;> rfl
    · cases summaryR <;> cases entitiesR <;> cases classificationR <;> rfl
    · cases summaryR <;> cases entitiesR <;> cases relationshipsR <;> rfl
  rw [hfail]
  unfold processDocumentOutcome
  dsimp only
  rw [if_pos hchunks]
  rfl

/-- Witness for C7's amended statement: the entity extraction rejects, the
other three succeed, and the pipeline outcome is `failed`. -/
theorem claim_C7_witness :
    (processDocumentOutcome (.ok ["text".toList])
      (Analyzer.analyzeDocument (.ok "a summary") (.error "network error")
        (.ok []) (.ok []))
      (.ok ())).1 = .failed :=
  claim_C7_hard_subfailure_fails_document _ _ _ _ _ _ (by decide)
    (Or.inr (Or.inl ⟨"network error", rfl⟩))

/-- C7 counterexample to the claim as stated: with exactly one hard
sub-extraction failure (entities) and the other three succeeding, the item
ends `failed` with the analyzer's error, not `completed`. -/
theorem claim_C7_counterexample :
    processDocumentOutcome (.ok ["text".toList])
        (Analyzer.analyzeDocument (.ok "a summary") (.error "network error")
          (.ok []) (.ok []))
        (.ok ()) = (.failed, some "Failed to analyze document") ∧
      QStatus.failed ≠ QStatus.completed :=
  ⟨rfl, by decide⟩

end Indexer
